import Mathlib

/-!
Verification of the BitStream library (BitStream.c): a bit-addressable
buffer over a byte array, with a hex-ASCII decoder and an XOR combinator
layered on top.

Modelling conventions for the shallow embedding:

* `uint8_t` values are `Nat`s below 256.  A `% 256` is written exactly at
  the points where the C program truncates (a store into a `uint8_t`
  lvalue, or a `uint8_t` parameter at a call boundary) and where the
  intermediate `int` expression can actually exceed 255.  Where the C
  `int` expression is already provably below 256 (e.g. a value masked with
  a constant `≤ 0xFF`) the truncating store is a no-op and is left
  unwritten.
* `uint16_t` offsets and bit counts are `Nat`s; the arithmetic performed
  on them in the C sources is done after integer promotion and cannot wrap
  for 16-bit operands, with one exception: the `bitsCopied` accumulator of
  `BitStreamFill`, which is stored back into a `uint16_t` on every loop
  iteration and is therefore modelled with an explicit `% 65536`.  The
  `BitStreamFill` while-loop is given an explicit step budget (`fuel`);
  a `none` result means that the loop has not finished within the budget.
* The `BitStream` struct has an owned byte pointer `array` (modelled as
  `Option (List Nat)`, `none` standing for `NULL`) and a bit count
  `nbits`.  The byte-level primitives `BitStreamPutByte`,
  `BitStreamGetByte` and `BitStreamFill` receive the dereferenced array
  `bs->array` and (where they read it) the field `bs->nbits` as explicit
  arguments.
* `assert(0)` (process abort) and a NULL-pointer write are modelled as
  `Option.none`; `malloc`/`calloc`/`realloc` are assumed to succeed, the
  allocation-failure paths are out of scope of the claims.
-/

def BITS_PER_BYTE : Nat := 8

/-- `xtoi` from BitStream.c; `c` is the character's ASCII code, `none`
models the `assert(0)` abort.  The third condition of the source reads
`c >= 'A' && c <- 'F'`, i.e. `c >= 'A' && c < -'F'`; no ASCII code
satisfies `c < -70`, which is kept literally here via the `Int` cast. -/
def xtoi (c : Nat) : Option Nat :=
  if 48 ≤ c ∧ c ≤ 57 then some (c - 48)
  else if 97 ≤ c ∧ c ≤ 102 then some (c - 97 + 10)
  else if 65 ≤ c ∧ (c : Int) < -70 then some (c - 65 + 10)
  else none

/-- The pair-decoding loop of `strtox` (`while (i < len) { ... }`).
`rest` is the not-yet-consumed suffix of the input, `j` the number of
bytes written to `out` so far, `size` the capacity of `out`.  The result
is the list of bytes written by the loop plus the return value of
`strtox`; `none` models the abort inside `xtoi`.  A one-element `rest`
cannot arise from `strtox` itself (after the odd-length adjustment the
remaining length is even); in that case the source reads `in[i+1]`,
which is the terminating `'\0'`, and `xtoi 0` aborts. -/
def strtoxAux : List Nat → Nat → Nat → Option (List Nat × Int)
  | [], j, _size => some ([], (j : Int))
  | [c], _j, _size =>
      match xtoi c, xtoi 0 with
      | some _, some _ => some ([], 0)
      | _, _ => none
  | c1 :: c2 :: rest, j, size =>
      match xtoi c1, xtoi c2 with
      | some ll, some uu =>
          let b := ((ll <<< 4) ||| uu) % 256
          if j + 1 ≥ size then some ([b], -1)
          else
            match strtoxAux rest (j + 1) size with
            | some (bs, r) => some (b :: bs, r)
            | none => none
      | _, _ => none

/-- `strtox` from BitStream.c.  `inp` is the input string as a list of
ASCII codes (up to, not including, the terminating `'\0'`), `size` the
capacity of the output buffer.  Returns the bytes written into `out` (in
order, starting at `out[0]`) together with the `int32_t` return value;
`none` models the `assert(0)` abort on a non-convertible character. -/
def strtox (inp : List Nat) (size : Nat) : Option (List Nat × Int) :=
  if inp.length % 2 = 1 then
    match xtoi (inp.headD 0) with
    | some v =>
        match strtoxAux inp.tail 1 size with
        | some (bs, r) => some (v :: bs, r)
        | none => none
    | none => none
  else strtoxAux inp 0 size

/-- The `BitStream` struct: `array` is the owned byte pointer (`none` for
`NULL`), `nbits` the logical bit length. -/
structure BitStream where
  array : Option (List Nat)
  nbits : Nat
  deriving DecidableEq, Repr

/-- `BitStreamCreate` (allocation-success path): for `nbits ≠ 0` a
zero-filled array of `ceil(nbits/8)` bytes (`calloc`; the subsequent
`memset(array, count, '\0')` has its arguments swapped and writes zero
bytes, a no-op on the already zeroed storage), otherwise a `NULL` array. -/
def BitStreamCreate (nbits : Nat) : BitStream :=
  if nbits ≠ 0 then
    { array := some (List.replicate ((nbits + BITS_PER_BYTE - 1) / BITS_PER_BYTE) 0)
      nbits := nbits }
  else
    { array := none, nbits := nbits }

/-- `realloc(arr, m)` on a byte array: the old contents survive up to the
smaller of the old and new sizes; the contents of a grown tail are
indeterminate in C and are modelled as zeros (no claim below depends on
the extension's contents, only on the resulting length). -/
def reallocBytes (arr : List Nat) (m : Nat) : List Nat :=
  arr.take m ++ List.replicate (m - arr.length) 0

/-- `BitStreamRealloc` (for `bs ≠ NULL`; the C function does nothing on a
`NULL` stream).  Mirrors the source branch for branch: with existing
storage, a supplied buffer replaces it (the old one is freed); with no
supplied buffer the storage is `realloc`ed to `ceil(nbits/8)` bytes when
`nbits ≠ 0` and dropped (`array = NULL`) when `nbits == 0`.  With no
existing storage the supplied buffer (possibly `NULL`) is adopted as is —
in particular nothing is allocated even when `nbits > 0`. -/
def BitStreamRealloc (bs : BitStream) (buffer : Option (List Nat)) (nbits : Nat) :
    BitStream :=
  match bs.array with
  | some arr =>
      match buffer with
      | some b => { array := some b, nbits := nbits }
      | none =>
          if nbits ≠ 0 then
            { array := some (reallocBytes arr ((nbits + BITS_PER_BYTE - 1) / BITS_PER_BYTE))
              nbits := nbits }
          else { array := none, nbits := nbits }
  | none => { array := buffer, nbits := nbits }

/-- `BitStreamPutByte`.  `arr` is the dereferenced `bs->array`; `byte`,
`offset`, `nbits` are the remaining parameters (`byte` is a `uint8_t`
parameter, hence the truncation at entry).  Returns the updated array and
the returned `bitsCopied`.  The function performs no bound check: an
access past the end of the array (which in C would write out of bounds)
leaves the list unchanged via `List.set` / reads 0 via `List.getD`; all
theorems below stay within bounds. -/
def BitStreamPutByte (arr : List Nat) (byte offset nbits : Nat) : List Nat × Nat :=
  let byte := byte % 256
  let i := offset / BITS_PER_BYTE
  let j := offset % BITS_PER_BYTE
  let byte1 := if nbits < 8 then (byte <<< (BITS_PER_BYTE - nbits)) % 256 else byte
  let curBits := min (BITS_PER_BYTE - j) nbits
  let mask := (255 >>> j) &&& (255 <<< (BITS_PER_BYTE - (j + curBits)))
  let arr1 := arr.set i ((arr.getD i 0 &&& (255 ^^^ mask)) ||| ((byte1 >>> j) &&& mask))
  let byte2 := (byte1 <<< curBits) % 256
  if curBits < nbits then
    let curBits2 := nbits - curBits
    let mask2 := (255 <<< (BITS_PER_BYTE - curBits2)) % 256
    let arr2 := arr1.set (i + 1)
      ((arr1.getD (i + 1) 0 &&& (255 ^^^ mask2)) ||| (byte2 &&& mask2))
    (arr2, curBits + curBits2)
  else
    (arr1, curBits)

/-- `BitStreamGetByte`.  `arr` is the dereferenced `bs->array`, `nbits0`
the field `bs->nbits`, `byteIn` the value behind the out-parameter
`byte` before the call (returned unchanged when the range check fails,
as the C function returns before writing through the pointer).  Returns
the fetched value and the returned `bitsCopied`. -/
def BitStreamGetByte (arr : List Nat) (nbits0 byteIn offset nbits : Nat) : Nat × Nat :=
  if offset + nbits > nbits0 then (byteIn, 0)
  else
    let i := offset / BITS_PER_BYTE
    let j := offset % BITS_PER_BYTE
    let curBits := min (BITS_PER_BYTE - j) nbits
    let mask := (255 >>> j) &&& (255 <<< (BITS_PER_BYTE - (j + curBits)))
    let b1 := ((arr.getD i 0 &&& mask) <<< j) % 256
    let res :=
      if curBits < nbits then
        let curBits2 := nbits - curBits
        let mask2 := (255 <<< (BITS_PER_BYTE - curBits2)) % 256
        (b1 ||| ((arr.getD (i + 1) 0 &&& mask2) >>> (BITS_PER_BYTE - j)), curBits + curBits2)
      else (b1, curBits)
    (if nbits < 8 then res.1 >>> (BITS_PER_BYTE - nbits) else res.1, res.2)

/-- The `while (bitsCopied < bs->nbits)` loop of `BitStreamFill`.
`bitsCopied` is a `uint16_t`, so the accumulation wraps at 65536 (for
`nbits0 ≥ 65529` the loop never exits).  `fuel` bounds the number of
loop iterations in this model; `none` means the loop has not finished
within that budget (exiting by the loop condition consumes no fuel). -/
def BitStreamFillLoop (arr : List Nat) (nbits0 : Nat) (inp : List Nat)
    (bitsCopied : Nat) : Nat → Option (List Nat × Nat)
  | 0 => if bitsCopied < nbits0 then none else some (arr, bitsCopied)
  | fuel + 1 =>
      if bitsCopied < nbits0 then
        let r := BitStreamPutByte arr (inp.headD 0) bitsCopied BITS_PER_BYTE
        BitStreamFillLoop r.1 nbits0 inp.tail ((bitsCopied + r.2) % 65536) fuel
      else
        some (arr, bitsCopied)

/-- `BitStreamFill`.  `arr` is `bs->array`, `nbits0` is `bs->nbits`;
`nbits` is the (unused) size-of-input parameter of the C function. -/
def BitStreamFill (arr : List Nat) (nbits0 : Nat) (inp : List Nat) (nbits : Nat)
    (fuel : Nat) : Option (List Nat × Nat) :=
  BitStreamFillLoop arr nbits0 inp 0 fuel

/-- `BitStreamFillAscii` (for `bs ≠ NULL`).  `inp` is the hex string as
ASCII codes.  The stream is rebound to `size * 8` bits and `strtox`
decodes into its array; the return value of `strtox` is ignored.  When
the rebind leaves `array = NULL` (which happens for `size > 0` whenever
the incoming stream had no storage), the C code would write through a
NULL pointer: modelled as `none`, as is the abort inside `strtox`. -/
def BitStreamFillAscii (bs : BitStream) (inp : List Nat) : Option (BitStream × Nat) :=
  let size := (inp.length + 1) / 2
  let bs1 := BitStreamRealloc bs none (size * BITS_PER_BYTE)
  match bs1.array with
  | none => if size = 0 then some (bs1, size * BITS_PER_BYTE) else none
  | some arr =>
      match strtox inp size with
      | none => none
      | some (out, _r) =>
          some ({ array := some (out ++ arr.drop out.length), nbits := bs1.nbits },
                size * BITS_PER_BYTE)

/-- Modelled from the spec: `BitStreamExclusiveOr` is declared in the
missing header and called by the driver, but its implementation is not
under src/.  Per spec §4.3, `xor(a, b)` requires
`a.bit_length == b.bit_length`, produces a new BitBuffer of the same bit
length whose bytes are the byte-wise XOR of `a`'s and `b`'s bytes, and
fails with `LengthMismatch` (here `none`) when the lengths differ. -/
def BitStreamExclusiveOr (a b : BitStream) : Option BitStream :=
  if a.nbits = b.nbits then
    match a.array, b.array with
    | some x, some y =>
        some { array := some (List.zipWith (fun u v => u ^^^ v) x y), nbits := a.nbits }
    | _, _ => some { array := none, nbits := a.nbits }
  else none

/-- The structural invariant of spec §3: `array` is `NULL` exactly when
`nbits = 0`, and otherwise holds exactly `ceil(nbits/8)` bytes. -/
def BitStreamInvariant (bs : BitStream) : Bool :=
  match bs.array with
  | none => bs.nbits == 0
  | some l => (bs.nbits != 0) && (l.length == (bs.nbits + BITS_PER_BYTE - 1) / BITS_PER_BYTE)

/-- The character class accepted without aborting by `xtoi` as compiled:
decimal digits and lowercase hex letters. -/
def isLowerHex (c : Nat) : Bool := (48 ≤ c && c ≤ 57) || (97 ≤ c && c ≤ 102)

/-- Numeric value of a hex digit (the value `xtoi` returns when it does
not abort). -/
def hexVal (c : Nat) : Nat := (xtoi c).getD 0

/-! ### List helpers -/

theorem getD_set_self (l : List Nat) (i x : Nat) (h : i < l.length) :
    (l.set i x).getD i 0 = x := by
  induction l generalizing i with
  | nil => simp at h
  | cons a t ih =>
      cases i with
      | zero => rfl
      | succ n => simpa using ih n (by simpa using h)

theorem getD_set_other (l : List Nat) (i k x : Nat) (h : i ≠ k) :
    (l.set i x).getD k 0 = l.getD k 0 := by
  induction l generalizing i k with
  | nil => simp
  | cons a t ih =>
      cases i with
      | zero =>
          cases k with
          | zero => exact absurd rfl h
          | succ m => simp
      | succ n =>
          cases k with
          | zero => simp
          | succ m => simpa using ih n m (by omega)

theorem getD_tail (l : List Nat) (k : Nat) : l.tail.getD k 0 = l.getD (k + 1) 0 := by
  cases l <;> simp

theorem getD_lt_of_forall_lt (l : List Nat) (k b : Nat) (hb : 0 < b)
    (h : ∀ x ∈ l, x < b) : l.getD k 0 < b := by
  rcases Nat.lt_or_ge k l.length with hk | hk
  · rw [List.getD_eq_getElem l 0 hk]
    exact h _ (List.getElem_mem hk)
  · rw [List.getD_eq_default l 0 hk]
    exact hb

/-! ### Mask arithmetic helpers -/

/-- A read-modify-write through an 8-bit mask: re-reading through the same
mask returns the written field, whatever was stored before. -/
theorem maskCancel (x y m : Nat) (hm : m < 256) :
    ((x &&& (255 ^^^ m)) ||| (y &&& m)) &&& m = y &&& m := by
  apply Nat.eq_of_testBit_eq
  intro i
  simp only [Nat.testBit_and, Nat.testBit_or, Nat.testBit_xor]
  by_cases him : m.testBit i
  · have hi : i < 8 := by
      by_contra hge
      have h2 : (256 : Nat) ≤ 2 ^ i := by
        calc (256 : Nat) = 2 ^ 8 := by norm_num
          _ ≤ 2 ^ i := Nat.pow_le_pow_right (by omega) (by omega)
      have hlt : m < 2 ^ i := lt_of_lt_of_le hm h2
      rw [Nat.testBit_lt_two_pow hlt] at him
      simp at him
    have h255 : (255 : Nat).testBit i = true := by
      interval_cases i <;> decide
    simp [him, h255]
  · simp [him]

/-! ### C2: the digit set accepted by the hex decoder -/

/-- C2 (code bug): the decoder is documented (both in the spec and in
`xtoi`'s own comment) to accept `[0-9a-fA-F]`, but the compiled condition
for the uppercase range is `c >= 'A' && c < -'F'`, which is never true,
so `'A'..'F'` fall through to `assert(0)` and abort; digits and lowercase
letters convert, and characters adjacent to the accepted ranges abort as
expected.  `strtox` on `"1A"` therefore aborts instead of decoding. -/
theorem xtoi_uppercase_aborts :
    xtoi 65 = none ∧ xtoi 70 = none ∧
    xtoi 48 = some 0 ∧ xtoi 57 = some 9 ∧
    xtoi 97 = some 10 ∧ xtoi 102 = some 15 ∧
    xtoi 47 = none ∧ xtoi 58 = none ∧ xtoi 96 = none ∧ xtoi 103 = none ∧
    strtox [49, 65] 2 = none := by decide

/-! ### C3: the storage invariant under create and rebind -/

/-- C3 (code bug): `BitStreamCreate` establishes the invariant (`array`
absent iff `nbits = 0`, otherwise `ceil(nbits/8)` bytes), and
`BitStreamRealloc` with no supplied storage preserves it when storage
exists — but rebinding a storage-less stream to a positive bit length
allocates nothing, leaving `array = NULL` with `nbits = 8`. -/
theorem realloc_no_storage_breaks_invariant :
    BitStreamInvariant (BitStreamCreate 0) = true ∧
    BitStreamInvariant (BitStreamCreate 12) = true ∧
    BitStreamInvariant (BitStreamRealloc (BitStreamCreate 12) none 20) = true ∧
    BitStreamInvariant (BitStreamRealloc (BitStreamCreate 12) none 0) = true ∧
    BitStreamInvariant (BitStreamRealloc (BitStreamCreate 0) none 8) = false ∧
    (BitStreamRealloc (BitStreamCreate 0) none 8).array = none ∧
    (BitStreamRealloc (BitStreamCreate 0) none 8).nbits = 8 := by decide

/-! ### C4: out-of-range reads are rejected -/

/-- C4: `BitStreamGetByte` reads zero bits whenever
`offset + nbits > bs->nbits`, and after rebinding a stream down to 0 bits
(which sets `nbits = 0` and releases the storage) every subsequent read
of at least one bit fails without touching memory: the result does not
depend on the array at all. -/
theorem getByte_rejects_out_of_range :
    (∀ (arr : List Nat) (n0 byteIn offset n : Nat), 1 ≤ n → n ≤ 8 →
        n0 < offset + n → BitStreamGetByte arr n0 byteIn offset n = (byteIn, 0))
    ∧ (∀ (bs : BitStream) (arr' : List Nat) (byteIn offset n : Nat), 1 ≤ n →
        BitStreamGetByte arr' (BitStreamRealloc bs none 0).nbits byteIn offset n
          = (byteIn, 0)) := by
  constructor
  · intro arr n0 byteIn offset n _h1 _h8 hgt
    unfold BitStreamGetByte
    rw [if_pos (by omega)]
  · intro bs arr' byteIn offset n h1
    have h0 : (BitStreamRealloc bs none 0).nbits = 0 := by
      rcases bs with ⟨arr?, nb⟩
      cases arr? <;> rfl
    rw [h0]
    unfold BitStreamGetByte
    rw [if_pos (by omega)]

/-- Witness for C4 at concrete inputs. -/
theorem getByte_rejects_out_of_range_witness :
    BitStreamGetByte [171] 8 99 1 8 = (99, 0) ∧
    BitStreamGetByte [5] (BitStreamRealloc (BitStreamCreate 16) none 0).nbits 42 0 3
      = (42, 0) :=
  ⟨getByte_rejects_out_of_range.1 [171] 8 99 1 8 (by decide) (by decide) (by decide),
   getByte_rejects_out_of_range.2 (BitStreamCreate 16) [5] 42 0 3 (by decide)⟩

/-! ### C8: overflow check of the hex decoder -/

/-- C8 (code bug): decoding `"ab"` into a destination of exactly
`ceil(2/2) = 1` byte writes the byte `0xab` but returns `-1`
(`BufferTooSmall`), because the source checks `if (j >= size)` after
`j++`; with one byte of slack the same input returns the byte count 1. -/
theorem strtox_exact_size_rejected :
    strtox [97, 98] 1 = some ([171], -1) ∧
    strtox [97, 98] 2 = some ([171], 1) := by decide

/-! ### C9: the XOR combinator (modelled from the spec) -/

/-- C9: `xor(a, b)` on equal bit lengths yields a fresh buffer of that bit
length whose bytes are the byte-wise XOR of the operands; on a length
mismatch it fails and yields no buffer. -/
theorem exclusiveOr_contract (a b : BitStream) :
    (a.nbits = b.nbits →
      ∃ c, BitStreamExclusiveOr a b = some c ∧ c.nbits = a.nbits ∧
        ∀ x y, a.array = some x → b.array = some y →
          c.array = some (List.zipWith (fun u v => u ^^^ v) x y))
    ∧ (a.nbits ≠ b.nbits → BitStreamExclusiveOr a b = none) := by
  constructor
  · intro h
    rcases ha : a.array with _ | x <;> rcases hb : b.array with _ | y
    · exact ⟨⟨none, a.nbits⟩, by simp [BitStreamExclusiveOr, if_pos h, ha, hb], rfl,
        fun x' y' hx hy => by cases hx⟩
    · exact ⟨⟨none, a.nbits⟩, by simp [BitStreamExclusiveOr, if_pos h, ha, hb], rfl,
        fun x' y' hx hy => by cases hx⟩
    · exact ⟨⟨none, a.nbits⟩, by simp [BitStreamExclusiveOr, if_pos h, ha, hb], rfl,
        fun x' y' hx hy => by cases hy⟩
    · refine ⟨⟨some (List.zipWith (fun u v => u ^^^ v) x y), a.nbits⟩,
        by simp [BitStreamExclusiveOr, if_pos h, ha, hb], rfl, ?_⟩
      intro x' y' hx hy
      cases hx
      cases hy
      rfl
  · intro h
    simp [BitStreamExclusiveOr, if_neg h]

/-- Witness for C9 at concrete inputs (one byte of the cryptopals vector:
`0x1c ^^^ 0x68 = 0x74`). -/
theorem exclusiveOr_contract_witness :
    (∃ c, BitStreamExclusiveOr { array := some [28], nbits := 8 }
            { array := some [104], nbits := 8 } = some c ∧
        c.nbits = ({ array := some [28], nbits := 8 } : BitStream).nbits ∧
        ∀ x y, ({ array := some [28], nbits := 8 } : BitStream).array = some x →
          ({ array := some [104], nbits := 8 } : BitStream).array = some y →
          c.array = some (List.zipWith (fun u v => u ^^^ v) x y)) ∧
    BitStreamExclusiveOr { array := some [28], nbits := 8 }
      { array := some [104, 1], nbits := 16 } = none :=
  ⟨(exclusiveOr_contract _ _).1 rfl, (exclusiveOr_contract _ _).2 (by decide)⟩

/-! ### C1: round trip of the bit primitives -/

theorem fst_pair {α β : Type} (a : α) (b : β) : (a, b).1 = a := rfl

theorem snd_pair {α β : Type} (a : α) (b : β) : (a, b).2 = b := rfl

set_option maxRecDepth 4096 in
/-- Core of the round trip when the field spans two bytes (after the
read-modify-write masks have been cancelled): only the written value
survives both reads. -/
theorem roundtrip_span_core :
    ∀ (v : Fin 256) (j : Fin 8) (n : Fin 9), 1 ≤ n.1 → 8 - j.1 < n.1 →
      (let B1 := if n.1 < 8 then v.1 <<< (8 - n.1) % 256 else v.1
       let V := (B1 >>> j.1 &&& (255 >>> j.1 &&& 255)) <<< j.1 % 256 |||
         (B1 <<< (8 - j.1) % 256 &&& 255 <<< (8 - (n.1 - (8 - j.1))) % 256) >>> (8 - j.1)
       if n.1 < 8 then V >>> (8 - n.1) else V) = v.1 % 2 ^ n.1 := by decide

set_option maxRecDepth 4096 in
/-- Core of the round trip when the field stays inside one byte. -/
theorem roundtrip_nospan_core :
    ∀ (v : Fin 256) (j : Fin 8) (n : Fin 9), 1 ≤ n.1 → n.1 ≤ 8 - j.1 →
      (let B1 := if n.1 < 8 then v.1 <<< (8 - n.1) % 256 else v.1
       let V := (B1 >>> j.1 &&& (255 >>> j.1 &&& 255 <<< (8 - (j.1 + n.1)))) <<< j.1 % 256
       if n.1 < 8 then V >>> (8 - n.1) else V) = v.1 % 2 ^ n.1 := by decide

/-- C1: writing the low `n` bits of a byte value at any in-range bit
offset and reading them back at the same offset and width returns exactly
those low-order `n` bits (and reports `n` bits read).  The buffer has
`ceil(n0/8)`-or-more bytes of storage for its `n0` bits, as every stream
satisfying the data-model invariant does. -/
theorem put_get_roundtrip (arr : List Nat) (v n0 offset n byteIn : Nat)
    (hv : v < 256) (hn1 : 1 ≤ n) (hn8 : n ≤ 8)
    (hoff : offset + n ≤ n0) (hlen : n0 ≤ 8 * arr.length) :
    BitStreamGetByte (BitStreamPutByte arr v offset n).1 n0 byteIn offset n
      = (v % 2 ^ n, n) := by
  have hj : offset % 8 < 8 := Nat.mod_lt _ (by omega)
  have hi : offset / 8 < arr.length := by omega
  rcases Nat.lt_or_ge (8 - offset % 8) n with hspan | hspan
  · -- the field spans bytes i and i+1
    have hi1 : offset / 8 + 1 < arr.length := by omega
    simp only [BitStreamPutByte, BitStreamGetByte, BITS_PER_BYTE]
    rw [Nat.mod_eq_of_lt hv]
    rw [Nat.min_eq_left (show 8 - offset % 8 ≤ n by omega)]
    rw [if_pos hspan]
    rw [fst_pair]
    rw [if_neg (show ¬ offset + n > n0 by omega)]
    rw [if_pos hspan]
    rw [getD_set_other _ (offset / 8 + 1) (offset / 8) _ (by omega)]
    rw [getD_set_self _ (offset / 8 + 1) _ (by rw [List.length_set]; exact hi1)]
    rw [getD_set_other _ (offset / 8) (offset / 8 + 1) _ (by omega)]
    rw [getD_set_self _ (offset / 8) _ hi]
    have e1 : 8 - (offset % 8 + (8 - offset % 8)) = 0 := by omega
    rw [e1, Nat.shiftLeft_zero]
    have e2 : 8 - offset % 8 + (n - (8 - offset % 8)) = n := by omega
    rw [e2]
    rw [snd_pair]
    simp only [Prod.mk.injEq]
    refine ⟨?_, trivial⟩
    rw [maskCancel _ _ _
      (show 255 >>> (offset % 8) &&& 255 < 256 from
        lt_of_le_of_lt Nat.and_le_right (by norm_num))]
    rw [maskCancel _ _ _
      (show 255 <<< (8 - (n - (8 - offset % 8))) % 256 < 256 from
        Nat.mod_lt _ (by norm_num))]
    exact roundtrip_span_core ⟨v, hv⟩ ⟨offset % 8, hj⟩ ⟨n, by omega⟩ hn1 hspan
  · -- the field fits in byte i
    simp only [BitStreamPutByte, BitStreamGetByte, BITS_PER_BYTE]
    rw [Nat.mod_eq_of_lt hv]
    rw [Nat.min_eq_right (show n ≤ 8 - offset % 8 by omega)]
    rw [if_neg (show ¬ n < n by omega)]
    rw [fst_pair]
    rw [if_neg (show ¬ offset + n > n0 by omega)]
    rw [if_neg (show ¬ n < n by omega)]
    rw [getD_set_self _ (offset / 8) _ hi]
    rw [snd_pair]
    simp only [Prod.mk.injEq]
    refine ⟨?_, trivial⟩
    have hM : 255 >>> (offset % 8) &&& 255 <<< (8 - (offset % 8 + n)) < 256 := by
      have h1 : 255 >>> (offset % 8) ≤ 255 := by
        rw [Nat.shiftRight_eq_div_pow]
        exact Nat.div_le_self _ _
      have h2 := Nat.and_le_left
        (n := 255 >>> (offset % 8)) (m := 255 <<< (8 - (offset % 8 + n)))
      omega
    rw [maskCancel _ _ _ hM]
    exact roundtrip_nospan_core ⟨v, hv⟩ ⟨offset % 8, hj⟩ ⟨n, by omega⟩ hn1 hspan

/-- Witness for C1 at a concrete spanning input: value 5 (binary 00101)
written with width 5 at bit offset 6 of a 2-byte buffer. -/
theorem put_get_roundtrip_witness :
    BitStreamGetByte (BitStreamPutByte [171, 205] 5 6 5).1 16 0 6 5 = (5 % 2 ^ 5, 5) :=
  put_get_roundtrip [171, 205] 5 16 6 5 0 (by decide) (by decide) (by decide)
    (by decide) (by decide)

/-! ### C5: frame property of a boundary-spanning write -/

/-- Writing through the low-nibble mask of a byte leaves its high nibble
(bits 0–3 in network bit order) unchanged. -/
theorem nibble_keep (a y : Nat) : (a &&& 240 ||| y &&& 15) &&& 240 = a &&& 240 := by
  apply Nat.eq_of_testBit_eq
  intro i
  simp only [Nat.testBit_and, Nat.testBit_or]
  by_cases h240 : (240 : Nat).testBit i
  · have h15 : (15 : Nat).testBit i = false := by
      rcases Nat.lt_or_ge i 8 with hi | hi
      · interval_cases i <;> revert h240 <;> decide
      · refine Nat.testBit_lt_two_pow ?_
        calc (15 : Nat) < 2 ^ 8 := by norm_num
          _ ≤ 2 ^ i := Nat.pow_le_pow_right (by omega) hi
    simp [h240, h15]
  · simp [h240]

/-- C5: an 8-bit write at bit offset `8*k + 4` (half-way into byte `k`)
modifies exactly bytes `k` and `k+1`: every other byte is untouched, the
length is unchanged, and the high nibble (bits 0–3 in network order) of
byte `k` survives. -/
theorem put_boundary_frame (arr : List Nat) (v k : Nat) (hk : k + 1 < arr.length) :
    ((BitStreamPutByte arr v (8 * k + 4) 8).1.length = arr.length) ∧
    ((BitStreamPutByte arr v (8 * k + 4) 8).1.getD k 0 &&& 240 = arr.getD k 0 &&& 240) ∧
    (∀ m, m ≠ k → m ≠ k + 1 →
      (BitStreamPutByte arr v (8 * k + 4) 8).1.getD m 0 = arr.getD m 0) := by
  simp only [BitStreamPutByte, BITS_PER_BYTE]
  rw [show (8 * k + 4) % 8 = 4 by omega, show (8 * k + 4) / 8 = k by omega]
  rw [show min (8 - 4) 8 = 4 from rfl]
  rw [if_neg (show ¬ (8 : Nat) < 8 by omega)]
  rw [if_pos (show (4 : Nat) < 8 by omega)]
  rw [fst_pair]
  refine ⟨?_, ?_, ?_⟩
  · simp [List.length_set]
  · rw [getD_set_other _ (k + 1) k _ (by omega)]
    rw [getD_set_self _ k _ (by omega)]
    rw [show (255 : Nat) >>> 4 &&& 255 <<< (8 - (4 + 4)) = 15 from rfl]
    rw [show (255 : Nat) ^^^ 15 = 240 from rfl]
    exact nibble_keep _ _
  · intro m hm hm1
    rw [getD_set_other _ (k + 1) m _ (by omega), getD_set_other _ k m _ (by omega)]

/-- Witness for C5: a 3-byte buffer, writing 0x5A at bit offset 4. -/
theorem put_boundary_frame_witness :
    ((BitStreamPutByte [170, 204, 255] 90 (8 * 0 + 4) 8).1.length
        = ([170, 204, 255] : List Nat).length) ∧
    ((BitStreamPutByte [170, 204, 255] 90 (8 * 0 + 4) 8).1.getD 0 0 &&& 240
        = ([170, 204, 255] : List Nat).getD 0 0 &&& 240) ∧
    (∀ m, m ≠ 0 → m ≠ 0 + 1 →
      (BitStreamPutByte [170, 204, 255] 90 (8 * 0 + 4) 8).1.getD m 0
        = ([170, 204, 255] : List Nat).getD m 0) :=
  put_boundary_frame [170, 204, 255] 90 0 (by decide)

/-! ### The fill loop: byte-aligned full-byte writes -/

theorem getD_zero (l : List Nat) : l.getD 0 0 = l.headD 0 := by
  cases l <;> rfl

/-- A full-byte write at a byte-aligned offset simply stores the (truncated)
byte at index `t` and reports 8 bits written. -/
theorem putByte_aligned (arr : List Nat) (byte t : Nat) :
    BitStreamPutByte arr byte (8 * t) 8 = (arr.set t (byte % 256), 8) := by
  simp only [BitStreamPutByte, BITS_PER_BYTE]
  rw [show (8 * t) % 8 = 0 by omega, show (8 * t) / 8 = t by omega]
  rw [if_neg (show ¬ (8 : Nat) < 8 by omega)]
  rw [show min (8 - 0) 8 = 8 from rfl]
  rw [if_neg (show ¬ (8 : Nat) < 8 by omega)]
  rw [show (255 : Nat) >>> 0 &&& 255 <<< (8 - (0 + 8)) = 255 from rfl]
  rw [show (255 : Nat) ^^^ 255 = 0 from rfl]
  rw [Nat.and_zero, Nat.zero_or, Nat.shiftRight_zero]
  have hand : byte % 256 &&& 255 = byte % 256 := by
    have h := Nat.and_pow_two_sub_one_eq_mod (byte % 256) 8
    norm_num at h
    rw [h]
  rw [hand]

theorem fillLoop_zero (arr : List Nat) (n0 : Nat) (inp : List Nat) (bc : Nat) :
    BitStreamFillLoop arr n0 inp bc 0
      = if bc < n0 then none else some (arr, bc) := rfl

theorem fillLoop_succ (arr : List Nat) (n0 : Nat) (inp : List Nat) (bc fuel : Nat) :
    BitStreamFillLoop arr n0 inp bc (fuel + 1)
      = if bc < n0 then
          BitStreamFillLoop (BitStreamPutByte arr (inp.headD 0) bc 8).1 n0 inp.tail
            ((bc + (BitStreamPutByte arr (inp.headD 0) bc 8).2) % 65536) fuel
        else some (arr, bc) := rfl

/-- Full characterization of the fill loop started at bit offset `8*t`
with enough fuel and no 16-bit wrap (`n0 ≤ 65528`): it returns after
writing source bytes into positions `t ..= ceil(n0/8) - 1`, reports
`8 * ceil(n0/8)` bits copied, and touches nothing else. -/
theorem fillLoop_spec (n0 : Nat) (h65 : n0 ≤ 65528) :
    ∀ (fuel t bc : Nat) (arr inp : List Nat), bc = 8 * t → n0 ≤ bc + 8 * fuel →
    ∃ out, BitStreamFillLoop arr n0 inp bc fuel
        = some (out, 8 * max t ((n0 + 7) / 8)) ∧
      out.length = arr.length ∧
      (∀ m, m < t → out.getD m 0 = arr.getD m 0) ∧
      (∀ m, t ≤ m → m < (n0 + 7) / 8 → m < arr.length →
        out.getD m 0 = inp.getD (m - t) 0 % 256) ∧
      (∀ m, t ≤ m → (n0 + 7) / 8 ≤ m → out.getD m 0 = arr.getD m 0) := by
  intro fuel
  induction fuel with
  | zero =>
      intro t bc arr inp hbc hle
      subst hbc
      refine ⟨arr, ?_, rfl, fun m _ => rfl, ?_, fun m _ _ => rfl⟩
      · rw [fillLoop_zero, if_neg (by omega)]
        rw [Nat.max_eq_left (show (n0 + 7) / 8 ≤ t by omega)]
      · intro m hm1 hm2 _
        exact absurd hm2 (by omega)
  | succ fuel ih =>
      intro t bc arr inp hbc hle
      subst hbc
      rcases Nat.lt_or_ge (8 * t) n0 with hlt | hge
      · obtain ⟨out, h1, h2, h3, h4, h5⟩ :=
          ih (t + 1) (8 * (t + 1)) (arr.set t (inp.headD 0 % 256)) inp.tail rfl (by omega)
        refine ⟨out, ?_, ?_, ?_, ?_, ?_⟩
        · rw [fillLoop_succ, if_pos hlt, putByte_aligned, fst_pair, snd_pair]
          rw [show 8 * t + 8 = 8 * (t + 1) by omega]
          rw [Nat.mod_eq_of_lt (show 8 * (t + 1) < 65536 by omega)]
          rw [h1]
          rw [Nat.max_eq_right (show t + 1 ≤ (n0 + 7) / 8 by omega)]
          rw [Nat.max_eq_right (show t ≤ (n0 + 7) / 8 by omega)]
        · rw [h2, List.length_set]
        · intro m hm
          rw [h3 m (by omega)]
          exact getD_set_other _ t m _ (by omega)
        · intro m hm1 hm2 hm3
          rcases Nat.eq_or_lt_of_le hm1 with rfl | hlt'
          · rw [h3 t (by omega)]
            rw [getD_set_self _ t _ (by omega)]
            rw [Nat.sub_self, getD_zero]
          · rw [h4 m (by omega) hm2 (by rw [List.length_set]; exact hm3)]
            rw [getD_tail]
            rw [show m - (t + 1) + 1 = m - t by omega]
        · intro m hm1 hm2
          rw [h5 m (by omega) hm2]
          exact getD_set_other _ t m _ (by omega)
      · refine ⟨arr, ?_, rfl, fun m _ => rfl, ?_, fun m _ _ => rfl⟩
        · rw [fillLoop_succ, if_neg (by omega)]
          rw [Nat.max_eq_left (show (n0 + 7) / 8 ≤ t by omega)]
        · intro m hm1 hm2 _
          exact absurd hm2 (by omega)

/-! ### C10: the fill operation -/

/-- For `65529 ≤ nbits0 ≤ 65535` the fill loop never exits: `bitsCopied`
stays a multiple of 8 below 65536 (it wraps from 65528 to 0), so the loop
condition `bitsCopied < nbits0` never becomes false, whatever the budget. -/
theorem fillLoop_wrap_diverges (n0 : Nat) (hlo : 65529 ≤ n0) (hhi : n0 ≤ 65535) :
    ∀ (fuel bc : Nat) (arr inp : List Nat), bc % 8 = 0 → bc < 65536 →
      BitStreamFillLoop arr n0 inp bc fuel = none := by
  intro fuel
  induction fuel with
  | zero =>
      intro bc arr inp h8 hlt
      rw [fillLoop_zero, if_pos (by omega)]
  | succ fuel ih =>
      intro bc arr inp h8 hlt
      rw [fillLoop_succ, if_pos (by omega)]
      have hbc : bc = 8 * (bc / 8) := by omega
      rw [hbc, putByte_aligned, fst_pair, snd_pair]
      exact ih _ _ _ (by omega) (by omega)

/-- C10 counterexample: at `bs->nbits = 65535` the fill loop has not
returned after 100000 iterations (copying the claimed
`ceil(65535/8) = 8192` bytes would take 8192); the 16-bit `bitsCopied`
accumulator wraps past `nbits` and the loop never terminates. -/
theorem fill_never_returns_at_65535 :
    BitStreamFill [0, 0] 65535 [1, 2, 3] 24 100000 = none :=
  fillLoop_wrap_diverges 65535 (by decide) (by decide) 100000 0 [0, 0] [1, 2, 3]
    rfl (by decide)

/-- C10 (amended): for `bs->nbits ≤ 65528` the fill loop terminates
(within `ceil(nbits0/8)` iterations) and the claim holds as stated: the
size-of-input parameter `nbits` is never read, exactly the first
`ceil(nbits0/8)` source bytes are copied to the byte positions below
`ceil(nbits0/8)` (whole bytes, so bits beyond `nbits0` in a final partial
byte are overwritten too), every byte from position `ceil(nbits0/8)` on
is untouched, and the returned bit count is `nbits0` rounded up to the
next multiple of 8. -/
theorem fill_ignores_nbits_param (arr inp : List Nat) (n0 nb nb' fuel : Nat)
    (h65 : n0 ≤ 65528) (hfuel : (n0 + 7) / 8 ≤ fuel) :
    BitStreamFill arr n0 inp nb fuel = BitStreamFill arr n0 inp nb' fuel ∧
    ∃ out, BitStreamFill arr n0 inp nb fuel = some (out, 8 * ((n0 + 7) / 8)) ∧
      out.length = arr.length ∧
      (∀ m, m < (n0 + 7) / 8 → m < arr.length → out.getD m 0 = inp.getD m 0 % 256) ∧
      (∀ m, (n0 + 7) / 8 ≤ m → out.getD m 0 = arr.getD m 0) := by
  refine ⟨rfl, ?_⟩
  obtain ⟨out, h1, h2, h3, h4, h5⟩ :=
    fillLoop_spec n0 h65 fuel 0 0 arr inp rfl (by omega)
  refine ⟨out, ?_, h2, ?_, ?_⟩
  · show BitStreamFillLoop arr n0 inp 0 fuel = _
    rw [h1, Nat.max_eq_right (Nat.zero_le _)]
  · intro m hm hmlen
    have h := h4 m (Nat.zero_le _) hm hmlen
    simpa using h
  · intro m hm
    exact h5 m (Nat.zero_le _) hm

/-- Witness for C10 (amended) at a concrete input: a 16-bit buffer filled
from two source bytes, with two different values of the unused `nbits`
parameter. -/
theorem fill_ignores_nbits_param_witness :
    (BitStreamFill [7, 7] 16 [170, 187] 5 2 = BitStreamFill [7, 7] 16 [170, 187] 99 2) ∧
    ∃ out, BitStreamFill [7, 7] 16 [170, 187] 5 2 = some (out, 8 * ((16 + 7) / 8)) ∧
      out.length = ([7, 7] : List Nat).length ∧
      (∀ m, m < (16 + 7) / 8 → m < ([7, 7] : List Nat).length →
        out.getD m 0 = ([170, 187] : List Nat).getD m 0 % 256) ∧
      (∀ m, (16 + 7) / 8 ≤ m → out.getD m 0 = ([7, 7] : List Nat).getD m 0) :=
  fill_ignores_nbits_param [7, 7] [170, 187] 16 5 99 2 (by decide) (by decide)

/-! ### C6: byte-aligned reads after a fill -/

set_option maxRecDepth 4096 in
/-- A byte-aligned read of `n ≤ 8` bits from a byte `x` returns the top
`n` bits of `x`, right-aligned. -/
theorem get_aligned_core : ∀ (x : Fin 256) (n : Fin 9),
    (if n.1 < 8 then
      ((x.1 &&& (255 >>> 0 &&& 255 <<< (8 - (0 + n.1)))) <<< 0 % 256) >>> (8 - n.1)
     else (x.1 &&& (255 >>> 0 &&& 255 <<< (8 - (0 + n.1)))) <<< 0 % 256)
      = x.1 >>> (8 - n.1) := by decide

/-- C6: filling a buffer (of `ceil(n0/8)`-or-more bytes, holding `n0`
bits) from a source byte array `B` and then reading `n ≤ 8` bits at the
byte-aligned offset `8*k` yields the top `n` bits of `B[k]`,
right-aligned, for every `k` with `8*k + n ≤ n0`. -/
theorem fill_then_get_top_bits (arr B : List Nat) (n0 k n byteIn nbArg fuel : Nat)
    (hn8 : n ≤ 8) (hoff : 8 * k + n ≤ n0) (h65 : n0 ≤ 65528)
    (hB : ∀ b ∈ B, b < 256) (hlen : (n0 + 7) / 8 ≤ arr.length)
    (hfuel : (n0 + 7) / 8 ≤ fuel) :
    ∀ out cnt, BitStreamFill arr n0 B nbArg fuel = some (out, cnt) →
      BitStreamGetByte out n0 byteIn (8 * k) n = (B.getD k 0 >>> (8 - n), n) := by
  intro out cnt hfill
  obtain ⟨out', h1, h2, h3, h4, h5⟩ :=
    fillLoop_spec n0 h65 fuel 0 0 arr B rfl (by omega)
  simp only [BitStreamFill] at hfill
  rw [h1] at hfill
  simp only [Option.some.injEq, Prod.mk.injEq] at hfill
  obtain ⟨hout, hcnt⟩ := hfill
  subst hout
  have hBk : B.getD k 0 < 256 := getD_lt_of_forall_lt B k 256 (by norm_num) hB
  simp only [BitStreamGetByte, BITS_PER_BYTE]
  rw [if_neg (show ¬ 8 * k + n > n0 by omega)]
  rw [show (8 * k) % 8 = 0 by omega, show (8 * k) / 8 = k by omega]
  rw [show (8 : Nat) - 0 = 8 from rfl]
  rw [Nat.min_eq_right hn8]
  rw [if_neg (show ¬ n < n by omega)]
  rw [snd_pair]
  simp only [fst_pair]
  simp only [Prod.mk.injEq]
  refine ⟨?_, trivial⟩
  rcases Nat.eq_zero_or_pos n with rfl | hn1
  · rw [if_pos (show (0 : Nat) < 8 by omega)]
    rw [show (255 : Nat) >>> 0 &&& 255 <<< (8 - (0 + 0)) = 0 from rfl]
    rw [Nat.and_zero]
    rw [show ((0 : Nat) <<< 0 % 256) >>> (8 - 0) = 0 from rfl]
    have hz : B.getD k 0 >>> (8 - 0) = 0 := by
      rw [show (8 : Nat) - 0 = 8 from rfl, Nat.shiftRight_eq_div_pow]
      exact Nat.div_eq_of_lt (lt_of_lt_of_le hBk (by norm_num))
    rw [hz]
  · have hk : k < (n0 + 7) / 8 := by omega
    have h := h4 k (Nat.zero_le _) hk (by omega)
    rw [Nat.sub_zero] at h
    rw [Nat.mod_eq_of_lt hBk] at h
    rw [h]
    exact get_aligned_core ⟨B.getD k 0, hBk⟩ ⟨n, by omega⟩

/-- Witness for C6: fill a 16-bit buffer from `[183, 201]` and read 3
bits at offset 8; `201 >>> 5 = 6`. -/
theorem fill_then_get_top_bits_witness :
    BitStreamGetByte [183, 201] 16 9 (8 * 1) 3
      = (([183, 201] : List Nat).getD 1 0 >>> (8 - 3), 3) :=
  fill_then_get_top_bits [0, 0] [183, 201] 16 1 3 9 0 2 (by decide) (by decide)
    (by decide) (by decide) (by decide) (by decide) [183, 201] 16 (by decide)

/-! ### C7: the odd-length hex decode convention -/

theorem xtoi_lower (c : Nat) (h : isLowerHex c = true) :
    xtoi c = some (hexVal c) ∧ hexVal c < 16 := by
  simp only [isLowerHex, Bool.or_eq_true, Bool.and_eq_true, decide_eq_true_eq] at h
  rcases h with ⟨h1, h2⟩ | ⟨h1, h2⟩
  · have hx : xtoi c = some (c - 48) := by
      unfold xtoi
      rw [if_pos ⟨h1, h2⟩]
    have hv : hexVal c = c - 48 := by
      unfold hexVal
      rw [hx]
      rfl
    rw [hx, hv]
    exact ⟨rfl, by omega⟩
  · have hx : xtoi c = some (c - 97 + 10) := by
      unfold xtoi
      rw [if_neg (by omega), if_pos ⟨h1, h2⟩]
    have hv : hexVal c = c - 97 + 10 := by
      unfold hexVal
      rw [hx]
      rfl
    rw [hx, hv]
    exact ⟨rfl, by omega⟩

theorem nibble_combine : ∀ (a b : Fin 16),
    ((a.1 <<< 4) ||| b.1) % 256 = 16 * a.1 + b.1 := by decide

/-- The pair loop of `strtox` on an even-length hex suffix, entered with
`j` bytes already written and `j + p = size`: it emits exactly the `p`
pair-decoded bytes, most significant nibble first (the returned code is
`-1` when `p ≥ 1` — the C overflow check fires on the last byte — and `j`
when `p = 0`). -/
theorem strtoxAux_pairs :
    ∀ (p : Nat) (rest : List Nat) (j size : Nat),
      rest.length = 2 * p → (∀ c ∈ rest, isLowerHex c = true) → j + p = size →
      ∃ out r, strtoxAux rest j size = some (out, r) ∧ out.length = p ∧
        ∀ t, t < p → out.getD t 0
          = 16 * hexVal (rest.getD (2 * t) 0) + hexVal (rest.getD (2 * t + 1) 0) := by
  intro p
  induction p with
  | zero =>
      intro rest j size hlen hhex hsize
      have hnil : rest = [] := List.eq_nil_of_length_eq_zero (by omega)
      subst hnil
      exact ⟨[], (j : Int), rfl, rfl, fun t ht => absurd ht (by omega)⟩
  | succ p ih =>
      intro rest j size hlen hhex hsize
      rcases rest with _ | ⟨c1, rest1⟩
      · simp at hlen
      rcases rest1 with _ | ⟨c2, rest'⟩
      · simp at hlen
        omega
      obtain ⟨hx1, hv1⟩ := xtoi_lower c1 (hhex c1 (by simp))
      obtain ⟨hx2, hv2⟩ := xtoi_lower c2 (hhex c2 (by simp))
      simp only [strtoxAux, hx1, hx2]
      rcases Nat.eq_zero_or_pos p with rfl | hp
      · have hrest : rest' = [] := by
          have h2 := hlen
          simp only [List.length_cons] at h2
          exact List.eq_nil_of_length_eq_zero (by omega)
        subst hrest
        rw [if_pos (by omega)]
        refine ⟨[((hexVal c1 <<< 4) ||| hexVal c2) % 256], -1, rfl, rfl, ?_⟩
        intro t ht
        have ht0 : t = 0 := by omega
        subst ht0
        rw [show (2 : Nat) * 0 = 0 from rfl, show (2 : Nat) * 0 + 1 = 1 from rfl]
        simp only [List.getD_cons_zero, List.getD_cons_succ]
        exact nibble_combine ⟨hexVal c1, hv1⟩ ⟨hexVal c2, hv2⟩
      · rw [if_neg (by omega)]
        obtain ⟨out', r', ha, hl, hform⟩ :=
          ih rest' (j + 1) size (by simp at hlen; omega)
            (fun c hc => hhex c (by simp [hc])) (by omega)
        rw [ha]
        refine ⟨((hexVal c1 <<< 4) ||| hexVal c2) % 256 :: out', r', rfl,
          by simp [hl], ?_⟩
        intro t ht
        rcases t with _ | t
        · rw [show (2 : Nat) * 0 = 0 from rfl, show (2 : Nat) * 0 + 1 = 1 from rfl]
          simp only [List.getD_cons_zero, List.getD_cons_succ]
          exact nibble_combine ⟨hexVal c1, hv1⟩ ⟨hexVal c2, hv2⟩
        · rw [show 2 * (t + 1) = (2 * t + 1) + 1 by omega]
          rw [show (2 * t + 1) + 1 + 1 = ((2 * t + 1) + 1) + 1 from rfl]
          simp only [List.getD_cons_succ]
          exact hform t (by omega)

/-- C7 counterexample: `"A"` is an odd-length string of hex digits
(per the claim's digit set `[0-9a-fA-F]`), but decoding it aborts in
`xtoi` (the uppercase comparison bug) and produces no byte at all,
instead of the claimed single byte with low nibble 10. -/
theorem strtox_odd_uppercase_aborts : strtox [65] 1 = none := by decide

/-- C7 (amended): for an odd-length string of length `2m+1` over the
digit set the decoder actually accepts (`[0-9a-f]`; uppercase aborts, see
the counterexample), `strtox` with the exact capacity `m+1` emits `m+1`
bytes: the first byte is the first character's hex value (low nibble,
high nibble zero) and the remaining characters are decoded in pairs, most
significant nibble first. -/
theorem strtox_odd_length (inp : List Nat) (m : Nat)
    (hlen : inp.length = 2 * m + 1)
    (hhex : ∀ c ∈ inp, isLowerHex c = true) :
    ∃ out r, strtox inp (m + 1) = some (out, r) ∧
      out.length = m + 1 ∧
      out.getD 0 0 = hexVal (inp.getD 0 0) ∧
      hexVal (inp.getD 0 0) < 16 ∧
      ∀ t, t < m → out.getD (t + 1) 0
        = 16 * hexVal (inp.getD (2 * t + 1) 0) + hexVal (inp.getD (2 * t + 2) 0) := by
  rcases inp with _ | ⟨c0, tail⟩
  · simp at hlen
  obtain ⟨hx0, hv0⟩ := xtoi_lower c0 (hhex c0 (by simp))
  obtain ⟨out', r', ha, hl, hform⟩ :=
    strtoxAux_pairs m tail 1 (m + 1) (by simp at hlen; omega)
      (fun c hc => hhex c (by simp [hc])) (by omega)
  refine ⟨hexVal c0 :: out', r', ?_, by simp [hl], ?_, ?_, ?_⟩
  · unfold strtox
    rw [if_pos (by simp at hlen ⊢; omega)]
    rw [show (c0 :: tail).headD 0 = c0 from rfl, show (c0 :: tail).tail = tail from rfl]
    rw [hx0, ha]
  · simp only [List.getD_cons_zero]
  · simpa only [List.getD_cons_zero] using hv0
  · intro t ht
    rw [show 2 * t + 2 = (2 * t + 1) + 1 from rfl]
    simp only [List.getD_cons_succ]
    exact hform t ht

/-- Witness for C7 (amended): `"1ab"` decodes to `[0x01, 0xab]`. -/
theorem strtox_odd_length_witness :
    ∃ out r, strtox [49, 97, 98] (1 + 1) = some (out, r) ∧
      out.length = 1 + 1 ∧
      out.getD 0 0 = hexVal (([49, 97, 98] : List Nat).getD 0 0) ∧
      hexVal (([49, 97, 98] : List Nat).getD 0 0) < 16 ∧
      ∀ t, t < 1 → out.getD (t + 1) 0
        = 16 * hexVal (([49, 97, 98] : List Nat).getD (2 * t + 1) 0)
          + hexVal (([49, 97, 98] : List Nat).getD (2 * t + 2) 0) :=
  strtox_odd_length [49, 97, 98] 1 (by decide) (by decide)
